import Mathlib

/-!
# Verification of `lightkurve-ext` against its specification

Shallow embedding of the algorithmic core of the `lightkurve-ext` repository:
the author disambiguator (`helper_func._revise_author`), the priority-based
duplicate selection (`selection.select_lc_with_author_priority`), the series
algorithms `split_by_gap`, `fill_gaps`, `fast_bin` from `lc_collection.py`,
the directory-scan index of `scan.py`, and the local search of
`search_local.py`.

Floating-point time/flux values are modelled by exact rationals `ℚ`;
a "NaN" flux entry is modelled as `Option ℚ` being `none`.  Python
exceptions are modelled with `Except PyErr`, and a function that may raise
returns `Except PyErr α`.
-/

namespace LKExt

/-- The kinds of Python exceptions raised by the code under study. -/
inductive PyErr where
  | valueError (msg : String)
  | typeError (msg : String)
  | indexError
  | runtimeError
  deriving DecidableEq, Repr

/-! ## Author disambiguator (`helper_func.py` / `selection.py`, `_revise_author`) -/

/-- The (metadata) view of a light-curve series that `_revise_author` and
`select_lc_with_author_priority` read: `AUTHOR`, `TIMEDEL` (in days),
`SECTOR` and `FILENAME` metadata entries.  `TIMEDEL` is modelled as an
exact rational. -/
structure LC where
  author : String
  timedel : ℚ
  sector : ℤ
  filename : String
  deriving DecidableEq, Repr

/-- Absolute value on `ℚ`, written so that it evaluates by kernel
reduction (the lattice-derived `|·|` does not). -/
def ratAbs (q : ℚ) : ℚ := if q < 0 then -q else q

lemma ratAbs_eq_abs (q : ℚ) : ratAbs q = |q| := by
  rw [ratAbs]
  split
  · rw [abs_of_neg]; assumption
  · rw [abs_of_nonneg]; linarith

/-- `np.isclose(a, b)` with the default tolerances `rtol = 1e-5`,
`atol = 1e-8`: `|a - b| ≤ atol + rtol * |b|`. -/
def npIsClose (a b : ℚ) : Prop := ratAbs (a - b) ≤ 1e-8 + 1e-5 * ratAbs b

instance (a b : ℚ) : Decidable (npIsClose a b) := by
  unfold npIsClose; infer_instance

/-- Embedding of `_revise_author` (`helper_func.py` lines 4-25; the identical
copy in `selection.py` lines 37-52).  `exptime_minute = TIMEDEL * 24 * 60`,
`exptime_second = exptime_minute * 60`; a `ValueError` is modelled as
`Except.error`. -/
def reviseAuthor (lc : LC) : Except PyErr LC :=
  if lc.author ≠ "SPOC" then .ok lc
  else
    let exptimeMinute := lc.timedel * 24 * 60
    let exptimeSecond := exptimeMinute * 60
    if npIsClose exptimeMinute 2 ∨ npIsClose exptimeSecond 20 then .ok lc
    else if npIsClose exptimeMinute 30 ∨ npIsClose exptimeMinute 10 ∨
        npIsClose exptimeSecond 200 then
      .ok { lc with author := "TESS-SPOC" }
    else
      .error (.valueError
        ("The exptime of the " ++ lc.filename ++
          " is not correct for SPOC or TESS-SPOC"))

/-- The cadence classes accepted for `SPOC` (2 min / 20 s) and the classes
rewritten to `TESS-SPOC` (30 min / 10 min / 200 s) are disjoint at the
`np.isclose` default tolerances. -/
lemma close_disjoint {em : ℚ}
    (h : npIsClose em 30 ∨ npIsClose em 10 ∨ npIsClose (em * 60) 200) :
    ¬(npIsClose em 2 ∨ npIsClose (em * 60) 20) := by
  intro hc
  rcases h with h | h | h <;> rcases hc with hc | hc <;>
    · rw [npIsClose, ratAbs_eq_abs, ratAbs_eq_abs, abs_le] at h hc
      norm_num at h hc
      linarith

/-- C1: `revise_author` leaves a non-`SPOC` series unchanged; on `SPOC`,
a `TIMEDEL` close to 2 minutes (or 20 seconds) leaves the author unchanged,
one close to 30 minutes, 10 minutes or 200 seconds rewrites the author to
`TESS-SPOC`, and any other `TIMEDEL` raises a `ValueError`. -/
theorem revise_author_spec (lc : LC) :
    (lc.author ≠ "SPOC" → reviseAuthor lc = .ok lc) ∧
    (lc.author = "SPOC" →
      ((npIsClose (lc.timedel * 24 * 60) 2 ∨
        npIsClose (lc.timedel * 24 * 60 * 60) 20) →
          reviseAuthor lc = .ok lc) ∧
      ((npIsClose (lc.timedel * 24 * 60) 30 ∨
        npIsClose (lc.timedel * 24 * 60) 10 ∨
        npIsClose (lc.timedel * 24 * 60 * 60) 200) →
          reviseAuthor lc = .ok { lc with author := "TESS-SPOC" }) ∧
      (¬(npIsClose (lc.timedel * 24 * 60) 2 ∨
         npIsClose (lc.timedel * 24 * 60 * 60) 20) →
       ¬(npIsClose (lc.timedel * 24 * 60) 30 ∨
         npIsClose (lc.timedel * 24 * 60) 10 ∨
         npIsClose (lc.timedel * 24 * 60 * 60) 200) →
          ∃ msg, reviseAuthor lc = .error (.valueError msg))) := by
  refine ⟨fun h => ?_, fun h => ⟨fun h2 => ?_, fun h2 => ?_, fun h2 h3 => ?_⟩⟩
  · rw [reviseAuthor, if_pos h]
  · rw [reviseAuthor, if_neg (by simp [h])]
    simp only []
    rw [if_pos h2]
  · have hn := close_disjoint h2
    rw [reviseAuthor, if_neg (by simp [h])]
    simp only []
    rw [if_neg hn, if_pos h2]
  · refine ⟨"The exptime of the " ++ lc.filename ++
      " is not correct for SPOC or TESS-SPOC", ?_⟩
    rw [reviseAuthor, if_neg (by simp [h])]
    simp only []
    rw [if_neg h2, if_neg h3]

/-- Witness for C1: a `SPOC` series with 10-minute cadence
(`TIMEDEL = 10 / (24 * 60)` days) is rewritten to `TESS-SPOC`. -/
theorem revise_author_spec_witness :
    reviseAuthor ⟨"SPOC", 10 / (24 * 60), 1, "f.fits"⟩ =
      .ok ⟨"TESS-SPOC", 10 / (24 * 60), 1, "f.fits"⟩ :=
  ((revise_author_spec _).2 rfl).2.1 (Or.inr (Or.inl (by norm_num [npIsClose, ratAbs])))

/-! ## Priority selection (`selection.select_lc_with_author_priority`,
identical to `LightCurveCollection.select_lc_with_author_priority` in
`lc_collection.py`) -/

/-- Whether an `Except` computation succeeded (Python: did not raise). -/
def isOkE {ε α : Type} : Except ε α → Bool
  | .ok _ => true
  | .error _ => false

/-- The inner `for lc in dup_lcc` loop body for one priority entry `pr`:
revise each candidate's author in turn and return the first whose revised
author equals `pr` (an exception from `_revise_author` propagates). -/
def findInDup (pr : String) : List LC → Except PyErr (Option LC)
  | [] => .ok none
  | lc :: rest => do
      let r ← reviseAuthor lc
      if r.author = pr then pure (some r) else findInDup pr rest

/-- The `for pr in author_priority_list` loop with the `have_found` flag:
try each priority entry in order until one matches. -/
def pickForSector (dup : List LC) : List String → Except PyErr (Option LC)
  | [] => .ok none
  | pr :: rest => do
      match ← findInDup pr dup with
      | some r => pure (some r)
      | none => pickForSector dup rest

/-- `np.unique`: the distinct values of a list in ascending order. -/
def uniqueSorted (l : List ℤ) : List ℤ := l.dedup.insertionSort (· ≤ ·)

/-- The body of the per-sector loop of `select_lc_with_author_priority`:
`c[i] > 1` triggers the duplicate resolution (the priority pick over
`dup_lcc = self[self.sector == sec]`), otherwise the single series
`self[self.sector == sec][0]` is kept unchanged. -/
def selectKept (coll : List LC) (prs : List String) (sec : ℤ) :
    Except PyErr (List LC) :=
  let dup := coll.filter (fun lc => lc.sector = sec)
  if dup.length > 1 then do
    match ← pickForSector dup prs with
    | some r => pure [r]
    | none => pure ([] : List LC)
  else pure (dup.take 1)

/-- The per-sector loop of `select_lc_with_author_priority`: for each sector
(in the order produced by `np.unique`) accumulate the kept series. -/
def selectAux (coll : List LC) (prs : List String) : List ℤ → Except PyErr (List LC)
  | [] => .ok []
  | sec :: rest => do
      let kept ← selectKept coll prs sec
      let others ← selectAux coll prs rest
      pure (kept ++ others)

/-- Embedding of `select_lc_with_author_priority` (`selection.py` lines
7-34): raise `ValueError` on an empty collection, otherwise process the
distinct sectors as produced by `np.unique` (ascending). -/
def selectLcWithAuthorPriority (coll : List LC) (prs : List String) :
    Except PyErr (List LC) :=
  if coll.length = 0 then .error (.valueError "The lc_collection is empty")
  else selectAux coll prs (uniqueSorted (coll.map (fun lc => lc.sector)))

/-- `_revise_author` as a total function (meaningful only where it does not
raise); used by the specification-side description below. -/
def reviseTotal (lc : LC) : LC :=
  match reviseAuthor lc with
  | .ok r => r
  | .error _ => lc

/-- Specification-side description of what is kept for one sector, following
the spec's words: a sector with exactly one series keeps it unchanged; a
sector with several keeps the first series, in priority-list order, whose
revised author matches a priority entry, and keeps nothing when none
matches. -/
def specSelectSector (coll : List LC) (prs : List String) (sec : ℤ) : List LC :=
  let dup := coll.filter (fun lc => lc.sector = sec)
  if dup.length = 1 then dup
  else
    match prs.findSome?
        (fun pr => (dup.map reviseTotal).find? (fun r => r.author == pr)) with
    | some r => [r]
    | none => []

lemma exbind_ok {ε α β : Type} (a : α) (f : α → Except ε β) :
    (Except.ok a >>= f) = f a := rfl

lemma expure {ε α : Type} (a : α) : (pure a : Except ε α) = Except.ok a := rfl

lemma findSome?_none {α β : Type} (l : List α) :
    l.findSome? (fun _ => (none : Option β)) = none := by
  induction l with
  | nil => rfl
  | cons a t ih => rw [List.findSome?_cons, ih]

lemma findInDup_eq (pr : String) (dup : List LC)
    (hok : ∀ lc ∈ dup, isOkE (reviseAuthor lc) = true) :
    findInDup pr dup =
      .ok ((dup.map reviseTotal).find? (fun r => r.author == pr)) := by
  induction dup with
  | nil => rfl
  | cons lc rest ih =>
    obtain ⟨r, hr⟩ : ∃ r, reviseAuthor lc = .ok r := by
      have h1 := hok lc (by simp)
      cases hrc : reviseAuthor lc with
      | ok r => exact ⟨r, rfl⟩
      | error e => rw [hrc] at h1; simp [isOkE] at h1
    have hrt : reviseTotal lc = r := by rw [reviseTotal, hr]
    rw [findInDup, hr, exbind_ok, List.map_cons, hrt, List.find?_cons]
    by_cases hpr : r.author = pr
    · rw [if_pos hpr, beq_iff_eq.mpr hpr, expure]
    · rw [if_neg hpr, ih (fun lc h => hok lc (by simp [h]))]
      have hb : (r.author == pr) = false := beq_eq_false_iff_ne.mpr hpr
      rw [hb]

lemma pickForSector_eq (dup : List LC) (prs : List String)
    (hok : ∀ lc ∈ dup, isOkE (reviseAuthor lc) = true) :
    pickForSector dup prs =
      .ok (prs.findSome?
        (fun pr => (dup.map reviseTotal).find? (fun r => r.author == pr))) := by
  induction prs with
  | nil => rfl
  | cons pr rest ih =>
    rw [pickForSector, findInDup_eq pr dup hok, exbind_ok, List.findSome?_cons]
    cases hfind : (dup.map reviseTotal).find? (fun r => r.author == pr) with
    | some r => rfl
    | none => exact ih

lemma selectKept_eq (coll : List LC) (prs : List String) (sec : ℤ)
    (hdup : ∀ lc ∈ coll.filter (fun lc => lc.sector = sec),
      isOkE (reviseAuthor lc) = true) :
    selectKept coll prs sec = .ok (specSelectSector coll prs sec) := by
  rw [selectKept, specSelectSector]
  by_cases hlen : (coll.filter (fun lc => lc.sector = sec)).length > 1
  · rw [if_pos hlen, pickForSector_eq _ _ hdup, exbind_ok,
      if_neg (by omega : ¬(coll.filter (fun lc => lc.sector = sec)).length = 1)]
    cases hpick : (prs.findSome? (fun pr =>
        ((coll.filter (fun lc => lc.sector = sec)).map reviseTotal).find?
          (fun r => r.author == pr))) with
    | some r => rfl
    | none => rfl
  · rw [if_neg hlen]
    rcases hfil : coll.filter (fun lc => lc.sector = sec) with _ | ⟨a, t⟩
    · rw [if_neg (by rw [hfil]; simp)]
      rw [hfil, List.map_nil]
      simp only [List.find?_nil, findSome?_none]
      rfl
    · rcases t with _ | ⟨b, t'⟩
      · rw [if_pos (by rw [hfil]; rfl), hfil]
        rfl
      · rw [hfil] at hlen
        simp at hlen

lemma selectAux_eq (coll : List LC) (prs : List String)
    (hok : ∀ lc ∈ coll, isOkE (reviseAuthor lc) = true) :
    ∀ secs, selectAux coll prs secs =
      .ok (secs.flatMap (specSelectSector coll prs)) := by
  intro secs
  induction secs with
  | nil => rfl
  | cons sec rest ih =>
    have hdup : ∀ lc ∈ coll.filter (fun lc => lc.sector = sec),
        isOkE (reviseAuthor lc) = true :=
      fun lc h => hok lc (List.mem_of_mem_filter h)
    rw [selectAux, selectKept_eq coll prs sec hdup, exbind_ok, ih, exbind_ok,
      expure, List.flatMap_cons]

/-- C2: `select_lc_with_author_priority` raises `ValueError` on an empty
collection; on a non-empty collection (whose members `_revise_author` can
process) the distinct sectors are processed in ascending order, a
single-series sector is kept unchanged, and a duplicated sector keeps the
first series in priority-list order whose revised author matches, or
nothing when none matches. -/
theorem select_author_priority_spec (coll : List LC) (prs : List String) :
    (coll = [] → selectLcWithAuthorPriority coll prs =
        .error (.valueError "The lc_collection is empty")) ∧
    (coll ≠ [] → (∀ lc ∈ coll, isOkE (reviseAuthor lc) = true) →
      (uniqueSorted (coll.map (fun lc => lc.sector))).Sorted (· < ·) ∧
      selectLcWithAuthorPriority coll prs =
        .ok ((uniqueSorted (coll.map (fun lc => lc.sector))).flatMap
          (specSelectSector coll prs))) := by
  constructor
  · intro h; subst h; rfl
  · intro hne hok
    constructor
    · have hsorted : (uniqueSorted (coll.map (fun lc => lc.sector))).Sorted (· ≤ ·) :=
        List.sorted_insertionSort _ _
      have hnodup : (uniqueSorted (coll.map (fun lc => lc.sector))).Nodup :=
        ((List.perm_insertionSort _ _).nodup_iff).mpr (List.nodup_dedup _)
      exact (hsorted.and hnodup).imp (fun h => lt_of_le_of_ne h.1 h.2)
    · rw [selectLcWithAuthorPriority,
        if_neg (by simpa [List.length_eq_zero] using hne)]
      exact selectAux_eq coll prs hok _

/-- Witness for C2: a three-series collection with a duplicated sector 3
(a `SPOC` series at 30-minute cadence and a `TESS-SPOC` series) and a
single-series sector 1. -/
theorem select_author_priority_spec_witness :
    (uniqueSorted (([⟨"SPOC", 30 / (24 * 60), 3, "a"⟩,
        ⟨"TESS-SPOC", 30 / (24 * 60), 3, "b"⟩,
        ⟨"QLP", 1, 1, "c"⟩] : List LC).map (fun lc => lc.sector))).Sorted (· < ·) ∧
    selectLcWithAuthorPriority
        [⟨"SPOC", 30 / (24 * 60), 3, "a"⟩,
         ⟨"TESS-SPOC", 30 / (24 * 60), 3, "b"⟩,
         ⟨"QLP", 1, 1, "c"⟩] ["TESS-SPOC", "SPOC"] =
      .ok ((uniqueSorted (([⟨"SPOC", 30 / (24 * 60), 3, "a"⟩,
        ⟨"TESS-SPOC", 30 / (24 * 60), 3, "b"⟩,
        ⟨"QLP", 1, 1, "c"⟩] : List LC).map (fun lc => lc.sector))).flatMap
          (specSelectSector [⟨"SPOC", 30 / (24 * 60), 3, "a"⟩,
            ⟨"TESS-SPOC", 30 / (24 * 60), 3, "b"⟩,
            ⟨"QLP", 1, 1, "c"⟩] ["TESS-SPOC", "SPOC"])) :=
  (select_author_priority_spec _ _).2 (by simp)
    (by
      refine List.forall_mem_cons.mpr ⟨?_, List.forall_mem_cons.mpr
        ⟨?_, List.forall_mem_cons.mpr ⟨?_, List.forall_mem_nil _⟩⟩⟩
      · norm_num [reviseAuthor, npIsClose, ratAbs, isOkE]
      · rfl
      · rfl)

/-! ## `LightCurve.split_by_gap` (`lc_collection.py` lines 98-112) -/

/-- The column view of a series sample that `split_by_gap` manipulates:
a timestamp plus the rest of the row (represented by its flux value). -/
structure Row where
  time : ℚ
  flux : ℚ
  deriving DecidableEq, Repr

/-- The time ordering used by `lc.sort()` (astropy sorts by the `time`
column; the sort is stable). -/
def timeLE (a b : Row) : Prop := a.time ≤ b.time

instance : DecidableRel timeLE := fun a b => by unfold timeLE; infer_instance

instance : IsTotal Row timeLE := ⟨fun a b => le_total a.time b.time⟩

instance : IsTrans Row timeLE := ⟨fun _ _ _ h1 h2 => le_trans h1 h2⟩

/-- `lc.sort()`: stable sort of the samples by time. -/
def sortTime (l : List Row) : List Row := l.insertionSort timeLE

/-- `np.diff`: consecutive differences. -/
def diffsQ (l : List ℚ) : List ℚ := l.zipWith (fun a b => b - a) l.tail

/-- `np.where(time_diff > gap_threshold)[0]`: the (ascending) indices of the
entries strictly above the threshold, as Python ints. -/
def whereGT (thr : ℚ) (l : List ℚ) : List ℤ :=
  l.enum.filterMap (fun p => if thr < p.2 then some ((p.1 : ℤ)) else none)

/-- Python list slicing `l[a:b]` (`b = None` meaning "to the end"). -/
def pySlice {α : Type} (l : List α) (a : ℕ) (b : Option ℕ) : List α :=
  match b with
  | none => l.drop a
  | some b => (l.take b).drop a

/-- The slice start used by the loop body:
`gap_indices[i] + 1 if gap_indices[i] != 0 else 0`. -/
def startIdx (g : ℤ) : ℕ := if g ≠ 0 then (g + 1).toNat else 0

/-- One iteration of the `for i in range(len(gap_indices))` loop, applied to
the pair `(gap_indices[i], gap_indices[i+1])`: yield the slice when
`gap_indices[i] != -1 and abs(gap_indices[i+1] - gap_indices[i]) >= 1`. -/
def segFun (s : List Row) (p : ℤ × ℤ) : Option (List Row) :=
  if p.1 ≠ -1 ∧ 1 ≤ (p.2 - p.1).natAbs then
    some (pySlice s (startIdx p.1)
      (if p.2 = -1 then none else some (p.2 + 1).toNat))
  else none

/-- Embedding of `split_by_gap`: sort by time, build
`gap_indices = [0] + np.where(diff > thr)[0].tolist() + [-1]` and yield the
guarded slices for consecutive index pairs.  (The generator is modelled by
the materialised list of its yields; the final loop index pairs `-1` with
nothing and is always skipped by the guard, so pairing consecutive elements
is exactly the loop.) -/
def splitByGap (thr : ℚ) (lc : List Row) : List (List Row) :=
  let s := sortTime lc
  let gaps : List ℤ := 0 :: whereGT thr (diffsQ (s.map (fun r => r.time))) ++ [-1]
  (gaps.zip gaps.tail).filterMap (segFun s)

lemma pySlice_append {α : Type} (l : List α) (a b : ℕ) (h : a ≤ b) :
    pySlice l a (some b) ++ l.drop b = l.drop a := by
  rw [pySlice]
  by_cases hb : b ≤ l.length
  · conv_rhs => rw [← List.take_append_drop b l]
    rw [List.drop_append_eq_append_drop, List.length_take,
      Nat.sub_eq_zero_of_le (le_min h (le_trans h hb)), List.drop_zero]
  · push_neg at hb
    rw [List.take_of_length_le (le_of_lt hb), List.drop_eq_nil_of_le (le_of_lt hb),
      List.append_nil]

lemma split_join_aux (s : List Row) :
    ∀ (ws : List ℤ) (g : ℤ), 0 ≤ g → (∀ w ∈ ws, g ≤ w) →
      ws.Sorted (· ≤ ·) →
      ((((g :: (ws ++ [-1])).zip (ws ++ [-1])).filterMap (segFun s)).flatten) =
        s.drop (startIdx g) := by
  intro ws
  induction ws with
  | nil =>
    intro g hg _ _
    simp only [List.nil_append, List.zip_cons_cons, List.zip_nil_right,
      List.filterMap_cons]
    rw [show segFun s (g, -1) = some (pySlice s (startIdx g) none) from ?_]
    · simp [pySlice]
    · rw [segFun, if_pos ⟨by omega, by omega⟩, if_pos rfl]
  | cons w ws' ih =>
    intro g hg hle hsorted
    have hgw : g ≤ w := hle w (by simp)
    have hge : ∀ x ∈ ws', w ≤ x := fun x hx => (List.sorted_cons.mp hsorted).1 x hx
    have hsorted' : ws'.Sorted (· ≤ ·) := (List.sorted_cons.mp hsorted).2
    simp only [List.cons_append]
    rw [List.zip_cons_cons, List.filterMap_cons]
    by_cases hw : w = g
    · rw [show segFun s (g, w) = none from ?_]
      · rw [ih w (by omega) hge hsorted', hw]
      · rw [segFun, if_neg]
        intro hcon
        omega
    · have hlt : g < w := lt_of_le_of_ne hgw (Ne.symm hw)
      rw [show segFun s (g, w) =
          some (pySlice s (startIdx g) (some (w + 1).toNat)) from ?_]
      · rw [List.flatten_cons, ih w (by omega) hge hsorted']
        have hstw : startIdx w = (w + 1).toNat := by rw [startIdx, if_pos (by omega)]
        rw [hstw, pySlice_append s _ _ (by rw [startIdx]; split <;> omega)]
      · rw [segFun, if_pos ⟨by omega, by omega⟩, if_neg (by omega)]

lemma whereGT_nonneg (thr : ℚ) (l : List ℚ) : ∀ w ∈ whereGT thr l, 0 ≤ w := by
  intro w hw
  obtain ⟨p, _, hp⟩ := List.mem_filterMap.mp hw
  by_cases hc : thr < p.2
  · rw [if_pos hc] at hp
    injection hp with h
    omega
  · rw [if_neg hc] at hp
    exact absurd hp (by simp)

lemma whereGT_sorted (thr : ℚ) (l : List ℚ) : (whereGT thr l).Sorted (· ≤ ·) := by
  have hsub : ∀ (m : List (ℕ × ℚ)),
      List.Sublist
        (m.filterMap (fun p => if thr < p.2 then some ((p.1 : ℤ)) else none))
        (m.map (fun p => ((p.1 : ℤ)))) := by
    intro m
    induction m with
    | nil => exact List.Sublist.refl _
    | cons a t ih =>
      rw [List.filterMap_cons, List.map_cons]
      by_cases hc : thr < a.2
      · rw [if_pos hc]
        exact ih.cons₂ _
      · rw [if_neg hc]
        exact ih.cons _
  have h1 : (l.enum.map Prod.fst).Pairwise (· < ·) := by
    rw [List.enum_map_fst]
    exact List.sorted_lt_range _
  have h2 : l.enum.Pairwise (fun p q => p.1 < q.1) := (List.pairwise_map).mp h1
  have hmap : (l.enum.map (fun p => ((p.1 : ℤ)))).Sorted (· ≤ ·) :=
    List.Pairwise.map _ (fun a b hab => Int.ofNat_le.mpr (le_of_lt hab)) h2
  exact hmap.sublist (hsub _)

/-- C3: concatenating the segments of `split_by_gap` and re-sorting by time
reproduces the time-sorted original series sample-for-sample, and the
segment lengths sum to the original length. -/
theorem split_by_gap_roundtrip (thr : ℚ) (lc : List Row) :
    sortTime (splitByGap thr lc).flatten = sortTime lc ∧
    ((splitByGap thr lc).map List.length).sum = lc.length := by
  have hjoin : (splitByGap thr lc).flatten = sortTime lc := by
    simp only [splitByGap]
    rw [List.cons_append, List.tail_cons]
    rw [split_join_aux (sortTime lc) _ 0 le_rfl
      (whereGT_nonneg thr _) (whereGT_sorted thr _)]
    rw [startIdx, if_neg (by omega), List.drop_zero]
  refine ⟨?_, ?_⟩
  · rw [hjoin]
    exact (List.sorted_insertionSort timeLE lc).insertionSort_eq
  · rw [← List.length_flatten, hjoin, sortTime]
    exact (List.perm_insertionSort timeLE lc).length_eq

lemma splitByGap_nil (thr : ℚ) : splitByGap thr ([] : List Row) = [[]] := rfl

/-- C4 counterexample: on an empty series `split_by_gap` yields one (empty)
segment, not zero segments (`gap_indices = [0, -1]` produces the slice
`lc[0:None]`). -/
theorem split_by_gap_empty_counterexample :
    splitByGap 1 ([] : List Row) = [[]] ∧
    splitByGap 1 ([] : List Row) ≠ ([] : List (List Row)) := by
  refine ⟨splitByGap_nil 1, ?_⟩
  rw [splitByGap_nil]
  simp

/-- C4 (amended): a series none of whose consecutive (sorted) time
differences exceeds the gap threshold is returned as exactly one segment
equal to the whole time-sorted series; an empty series yields exactly one
empty segment (not zero segments as the spec claims). -/
theorem split_by_gap_edge_cases (thr : ℚ) (lc : List Row) :
    ((∀ d ∈ diffsQ ((sortTime lc).map (fun r => r.time)), d ≤ thr) →
      splitByGap thr lc = [sortTime lc]) ∧
    splitByGap thr ([] : List Row) = [[]] := by
  constructor
  · intro hnogap
    have hwhere : whereGT thr (diffsQ ((sortTime lc).map (fun r => r.time))) = [] := by
      rw [whereGT, List.filterMap_eq_nil_iff]
      intro p hp
      rw [if_neg (not_lt.mpr (hnogap p.2 (List.snd_mem_of_mem_enum hp)))]
    simp only [splitByGap]
    rw [hwhere, List.cons_append, List.nil_append, List.tail_cons]
    simp only [List.zip_cons_cons,
      List.zip_nil_right, List.filterMap_cons, List.filterMap_nil]
    rw [show segFun (sortTime lc) (0, -1) =
        some (pySlice (sortTime lc) (startIdx 0) none) from ?_]
    · rw [startIdx, if_neg (by omega), pySlice, List.drop_zero]
    · rw [segFun, if_pos ⟨by omega, by omega⟩, if_pos rfl]
  · exact splitByGap_nil thr

/-- Witness for C4: a two-sample series with consecutive difference 1 and
threshold 5 comes back as a single whole segment. -/
theorem split_by_gap_edge_cases_witness :
    splitByGap 5 [(⟨0, 1⟩ : Row), ⟨1, 2⟩] = [sortTime [(⟨0, 1⟩ : Row), ⟨1, 2⟩]] :=
  (split_by_gap_edge_cases 5 _).1 (by
    norm_num [sortTime, List.insertionSort, List.orderedInsert, timeLE, diffsQ])

/-! ## `LightCurve.fill_gaps` (`lc_collection.py` lines 114-217)

We embed the `method="zero"` instantiation on a series without a
`cadenceno` or `quality` column (`hasattr(lc, "cadenceno")` /
`hasattr(lc, "quality")` are false, so the code takes the "less precise"
time-walking reconstruction and skips the quality block).  A flux of
`none` models a NaN flux entry; `remove_nans` drops those rows. -/

/-- Sample view for `fill_gaps`: time, flux (`none` = NaN), flux error. -/
structure FRow where
  time : ℚ
  flux : Option ℚ
  fluxErr : ℚ
  deriving DecidableEq, Repr

/-- `lc.copy().remove_nans()`: drop the samples whose flux is NaN. -/
def removeNans (l : List FRow) : List FRow := l.filter (fun r => r.flux.isSome)

/-- `np.median` / `np.nanmedian` on a NaN-free array: sort; take the middle
element (odd length) or the mean of the two middle elements (even). -/
def npMedian (l : List ℚ) : ℚ :=
  let s := l.insertionSort (· ≤ ·)
  if l.length % 2 = 1 then s.getD (l.length / 2) 0
  else (s.getD (l.length / 2 - 1) 0 + s.getD (l.length / 2) 0) / 2

/-- `np.interp x xp fp` for an increasing `xp` (pairs `(xp i, fp i)`):
clamp outside the range, linear interpolation inside. -/
def npInterp (x : ℚ) : List (ℚ × ℚ) → ℚ
  | [] => 0
  | [(_, fa)] => fa
  | (a, fa) :: (b, fb) :: rest =>
      if x < b then
        if x ≤ a then fa else fa + (fb - fa) * (x - a) / (b - a)
      else npInterp x ((b, fb) :: rest)

/-- The `while (t - prevtime) > 1.2 * dt` loop inserting timestamps
`prevtime + dt`.  `fuel` bounds the number of iterations; the caller passes
`⌈(t - prev) / dt⌉ + 1`, which exceeds the source loop's iteration count
(each iteration advances `prev` by `dt > 0`, and the loop stops as soon as
`t - prev ≤ 1.2 * dt`), so the embedding performs exactly the source's
iterations. -/
def synthGapAux (dt t : ℚ) : ℕ → ℚ → List ℚ
  | 0, _ => []
  | fuel + 1, prev =>
      if t - prev > 1.2 * dt then (prev + dt) :: synthGapAux dt t fuel (prev + dt)
      else []

/-- The timestamps synthesised inside one gap `(prev, t)`.  `dt? = none`
models `dt = NaN` (fewer than two samples: `np.nanmedian` of an empty
difference array), for which the `>` comparison is always false and nothing
is inserted.  The source loop does not terminate when `dt ≤ 0` (it moves
`prevtime` the wrong way); the embedding is specified only for `0 < dt` and
returns `[]` otherwise. -/
def synthGap (dt? : Option ℚ) (prev t : ℚ) : List ℚ :=
  match dt? with
  | none => []
  | some dt =>
      if 0 < dt then synthGapAux dt t ((⌈(t - prev) / dt⌉).toNat + 1) prev
      else []

/-- The `for t in lc.time.value[1::]` walk appending synthesised gap
timestamps and then the observed timestamp. -/
def buildNtimeAux (dt? : Option ℚ) : ℚ → List ℚ → List ℚ
  | _, [] => []
  | prev, t :: ts => synthGap dt? prev t ++ t :: buildNtimeAux dt? t ts

/-- `ntime`: the observed timestamps with gap timestamps inserted
(`ntime = [lc.time.value[0]]` then the walk). -/
def buildNtime (dt? : Option ℚ) (times : List ℚ) : List ℚ :=
  match times with
  | [] => []
  | t0 :: rest => t0 :: buildNtimeAux dt? t0 rest

/-- The masked column assignments for `method="zero"`, expressed as one walk
over `ntime`: `in_original = np.in1d(ntime, lc.time.value)` marks the
positions whose timestamp occurs in the observed times; those positions take
the observed flux/flux-error columns in order
(`f[in_original] = lc.flux; fe[in_original] = lc.flux_err`), the others take
flux `0` and a flux error interpolated from the observed `(time, flux_err)`
pairs.  `none` models the NumPy broadcast error raised when the number of
marked positions differs from the column length. -/
def fillAssign (times : List ℚ) (errPairs : List (ℚ × ℚ)) :
    List ℚ → List FRow → Option (List FRow)
  | [], [] => some []
  | [], _ :: _ => none
  | nt :: nts, queue =>
      if nt ∈ times then
        match queue with
        | [] => none
        | r :: q => do
            let rest ← fillAssign times errPairs nts q
            pure ({ time := nt, flux := r.flux, fluxErr := r.fluxErr } :: rest)
      else do
        let rest ← fillAssign times errPairs nts queue
        pure ({ time := nt, flux := some 0, fluxErr := npInterp nt errPairs } :: rest)

/-- Embedding of `fill_gaps(method="zero")`: drop NaN fluxes, compute
`dt = np.nanmedian(np.diff(time))`, build `ntime`, and fill the columns.
Indexing `lc.time.value[0]` on an empty array raises `IndexError`. -/
def fillGapsZero (rows : List FRow) : Except PyErr (List FRow) :=
  match removeNans rows with
  | [] => .error .indexError
  | r0 :: rest =>
    let times := (r0 :: rest).map (fun r => r.time)
    let dt? : Option ℚ :=
      match diffsQ times with
      | [] => none
      | d => some (npMedian d)
    match fillAssign times ((r0 :: rest).map (fun r => (r.time, r.fluxErr)))
        (buildNtime dt? times) (r0 :: rest) with
    | some out => .ok out
    | none => .error (.valueError "NumPy broadcast mismatch in masked assignment")

lemma synthGapAux_mem (dt t : ℚ) (hdt : 0 < dt) :
    ∀ (fuel : ℕ) (prev s : ℚ), s ∈ synthGapAux dt t fuel prev →
      prev < s ∧ s < t := by
  intro fuel
  induction fuel with
  | zero => intro prev s hs; simp [synthGapAux] at hs
  | succ n ih =>
    intro prev s hs
    rw [synthGapAux] at hs
    by_cases hc : t - prev > 1.2 * dt
    · rw [if_pos hc] at hs
      rcases List.mem_cons.mp hs with h | h
      · subst h
        constructor <;> linarith
      · have := ih (prev + dt) s h
        constructor <;> linarith
    · rw [if_neg hc] at hs
      simp at hs

lemma synthGap_mem (dt? : Option ℚ) (prev t : ℚ) :
    ∀ s ∈ synthGap dt? prev t, prev < s ∧ s < t := by
  intro s hs
  cases dt? with
  | none => rw [synthGap] at hs; simp at hs
  | some dt =>
    rw [synthGap] at hs
    by_cases hdt : 0 < dt
    · rw [if_pos hdt] at hs
      exact synthGapAux_mem dt t hdt _ prev s hs
    · rw [if_neg hdt] at hs
      simp at hs

lemma not_mem_of_between {T P S : List ℚ} {a b : ℚ}
    (hT : T.Pairwise (· < ·)) (hdecomp : T = P ++ a :: b :: S) {x : ℚ}
    (hax : a < x) (hxb : x < b) : x ∉ T := by
  subst hdecomp
  intro hmem
  obtain ⟨-, h2, h3⟩ := List.pairwise_append.mp hT
  rcases List.mem_append.mp hmem with h | h
  · have := h3 x h a (by simp)
    linarith
  · rcases List.mem_cons.mp h with h | h
    · subst h; linarith
    · rcases List.mem_cons.mp h with h | h
      · subst h; linarith
      · have := (List.pairwise_cons.mp (List.pairwise_cons.mp h2).2).1 x h
        linarith

lemma fillAssign_synths (T : List ℚ) (EP : List (ℚ × ℚ)) (S : List ℚ)
    (hS : ∀ s ∈ S, s ∉ T) (nts : List ℚ) (q : List FRow) :
    fillAssign T EP (S ++ nts) q =
      (fillAssign T EP nts q).map
        (fun out => S.map (fun s => (⟨s, some 0, npInterp s EP⟩ : FRow)) ++ out) := by
  induction S with
  | nil =>
    cases h : fillAssign T EP nts q <;> simp [h]
  | cons s S' ih =>
    have hs : s ∉ T := hS s (by simp)
    rw [List.cons_append]
    simp only [fillAssign, if_neg hs]
    rw [ih (fun x hx => hS x (by simp [hx]))]
    cases hfa : fillAssign T EP nts q with
    | none => simp
    | some out => simp

lemma fillAssign_go (T : List ℚ) (EP : List (ℚ × ℚ)) (dt? : Option ℚ)
    (hT : T.Pairwise (· < ·)) :
    ∀ (q : List FRow) (prev : ℚ) (P : List ℚ),
      T = P ++ prev :: q.map (fun r => r.time) →
      (∀ r ∈ q, r.flux.isSome = true) →
      ∃ out,
        fillAssign T EP (buildNtimeAux dt? prev (q.map (fun r => r.time))) q =
          some out ∧
        q.length ≤ out.length ∧ (∀ r ∈ out, r.flux.isSome = true) ∧
        ∀ r ∈ q, r ∈ out := by
  intro q
  induction q with
  | nil =>
    intro prev P hdecomp hq
    exact ⟨[], rfl, by simp, by simp, by simp⟩
  | cons r q' ih =>
    intro prev P hdecomp hq
    simp only [List.map_cons] at hdecomp ⊢
    have hsynth_not : ∀ s ∈ synthGap dt? prev r.time, s ∉ T := by
      intro s hs
      have hb := synthGap_mem dt? prev r.time s hs
      exact not_mem_of_between hT hdecomp hb.1 hb.2
    rw [buildNtimeAux, fillAssign_synths T EP _ hsynth_not]
    have hrT : r.time ∈ T := by rw [hdecomp]; simp
    simp only [fillAssign, if_pos hrT]
    obtain ⟨out', hout', hlen', hflux', hmem'⟩ :=
      ih r.time (P ++ [prev])
        (by rw [hdecomp]; simp)
        (fun x hx => hq x (by simp [hx]))
    rw [hout']
    have hrow : ({ time := r.time, flux := r.flux, fluxErr := r.fluxErr } : FRow) = r := rfl
    refine ⟨(synthGap dt? prev r.time).map
        (fun s => (⟨s, some 0, npInterp s EP⟩ : FRow)) ++ r :: out', ?_, ?_, ?_, ?_⟩
    · simp [hrow]
    · simp only [List.length_append, List.length_cons, List.length_map]
      omega
    · intro x hx
      rcases List.mem_append.mp hx with h | h
      · obtain ⟨s, -, hsx⟩ := List.mem_map.mp h
        rw [← hsx]
        rfl
      · rcases List.mem_cons.mp h with h | h
        · subst h; exact hq x (by simp)
        · exact hflux' x h
    · intro x hx
      rcases List.mem_cons.mp hx with h | h
      · subst h; simp
      · exact List.mem_append_right _ (List.mem_cons_of_mem _ (hmem' x h))

/-- C5 counterexample: a five-sample series with NaN fluxes at times 1 and 3
comes back from `fill_gaps(series, "zero")` with 3 samples — fewer than the
original 5, because the NaN rows are dropped first and the remaining spacing
(2 time units, exactly the median cadence) opens no gap to refill. -/
theorem fill_gaps_nan_counterexample :
    fillGapsZero [⟨0, some 1, 0⟩, ⟨1, none, 0⟩, ⟨2, some 1, 0⟩,
        ⟨3, none, 0⟩, ⟨4, some 1, 0⟩] =
      .ok [⟨0, some 1, 0⟩, ⟨2, some 1, 0⟩, ⟨4, some 1, 0⟩] ∧
    ([⟨0, some 1, 0⟩, ⟨2, some 1, 0⟩, ⟨4, some 1, 0⟩] : List FRow).length <
      ([⟨0, some 1, 0⟩, ⟨1, none, 0⟩, ⟨2, some 1, 0⟩,
        ⟨3, none, 0⟩, ⟨4, some 1, 0⟩] : List FRow).length := by
  constructor
  · norm_num [fillGapsZero, removeNans, diffsQ, npMedian, buildNtime,
      buildNtimeAux, synthGap, synthGapAux, fillAssign, npInterp,
      List.insertionSort, List.orderedInsert, Int.toNat_ofNat]
  · simp

/-- C5 (amended): on a series with strictly increasing timestamps and at
least one non-NaN flux, `fill_gaps(series, "zero")` succeeds, returns at
least as many samples as there are non-NaN samples (hence at least the
original length when the series is NaN-free), contains no NaN flux, and
retains every non-NaN original sample exactly. -/
theorem fill_gaps_zero_spec (rows : List FRow)
    (hsorted : (rows.map (fun r => r.time)).Pairwise (· < ·))
    (hne : removeNans rows ≠ []) :
    ∃ out, fillGapsZero rows = .ok out ∧
      (removeNans rows).length ≤ out.length ∧
      ((∀ r ∈ rows, r.flux.isSome = true) → rows.length ≤ out.length) ∧
      (∀ r ∈ out, r.flux.isSome = true) ∧
      (∀ r ∈ removeNans rows, r ∈ out) := by
  rcases hlc : removeNans rows with _ | ⟨r0, rest⟩
  · exact absurd hlc hne
  have hsub : List.Sublist ((removeNans rows).map (fun r => r.time))
      (rows.map (fun r => r.time)) := (List.filter_sublist rows).map _
  have hT : ((r0 :: rest).map (fun r => r.time)).Pairwise (· < ·) := by
    rw [← hlc]
    exact hsorted.sublist hsub
  have hq : ∀ r ∈ r0 :: rest, r.flux.isSome = true := by
    rw [← hlc]
    intro r hr
    rw [removeNans] at hr
    exact (List.mem_filter.mp hr).2
  simp only [fillGapsZero, hlc]
  simp only [List.map_cons, buildNtime]
  have hr0T : r0.time ∈ r0.time :: rest.map (fun r => r.time) := by simp
  simp only [fillAssign, if_pos hr0T]
  obtain ⟨out', hout', hlen', hflux', hmem'⟩ :=
    fillAssign_go (r0.time :: rest.map (fun r => r.time))
      ((r0.time, r0.fluxErr) :: rest.map (fun r => (r.time, r.fluxErr)))
      (match diffsQ (r0.time :: rest.map (fun r => r.time)) with
        | [] => none
        | d => some (npMedian d))
      (by simpa using hT) rest r0.time [] (by simp) (fun x hx => hq x (by simp [hx]))
  rw [hout']
  have hrow : ({ time := r0.time, flux := r0.flux, fluxErr := r0.fluxErr } : FRow) = r0 := rfl
  refine ⟨r0 :: out', by rw [hrow]; rfl, ?_, ?_, ?_, ?_⟩
  · simp only [List.length_cons]
    omega
  · intro hnonan
    have hself : removeNans rows = rows :=
      List.filter_eq_self.mpr (fun a ha => hnonan a ha)
    rw [hself] at hlc
    rw [hlc]
    simp only [List.length_cons]
    omega
  · intro x hx
    rcases List.mem_cons.mp hx with h | h
    · subst h; exact hq x (by simp)
    · exact hflux' x h
  · intro x hx
    rcases List.mem_cons.mp hx with h | h
    · subst h; simp
    · exact List.mem_cons_of_mem _ (hmem' x h)

/-- Witness for C5: a NaN-free four-sample series with a gap from time 2
to time 10 (median cadence 1). -/
theorem fill_gaps_zero_spec_witness :
    ∃ out, fillGapsZero [⟨0, some 5, 1⟩, ⟨1, some 6, 1⟩, ⟨2, some 7, 1⟩,
        ⟨10, some 8, 1⟩] = .ok out ∧
      (removeNans [⟨0, some 5, 1⟩, ⟨1, some 6, 1⟩, ⟨2, some 7, 1⟩,
        ⟨10, some 8, 1⟩]).length ≤ out.length ∧
      ((∀ r ∈ [(⟨0, some 5, 1⟩ : FRow), ⟨1, some 6, 1⟩, ⟨2, some 7, 1⟩,
        ⟨10, some 8, 1⟩], r.flux.isSome = true) →
        ([(⟨0, some 5, 1⟩ : FRow), ⟨1, some 6, 1⟩, ⟨2, some 7, 1⟩,
          ⟨10, some 8, 1⟩]).length ≤ out.length) ∧
      (∀ r ∈ out, r.flux.isSome = true) ∧
      (∀ r ∈ removeNans [⟨0, some 5, 1⟩, ⟨1, some 6, 1⟩, ⟨2, some 7, 1⟩,
        ⟨10, some 8, 1⟩], r ∈ out) :=
  fill_gaps_zero_spec _ (by norm_num [List.pairwise_cons])
    (by simp [removeNans])

/-! ## `LightCurve.fast_bin` (`lc_collection.py` lines 219-325)

`x = self.time.value`, `y = self.flux.value` are embedded as two rational
lists (the claims under study do not involve NaN fluxes here, so `y` is a
plain list); the output is the pair of the `time` and `flux` columns of the
returned series, a missing (NaN) bin value being `none`. -/

/-- The pointer-advance loops
`while j < x_len and x[j] < bound: j += 1`, driven by explicit fuel; the
caller passes `x.length - j`, which is exactly the number of remaining
positions, so the fuel never runs out before the loop condition fails.
(The initial `x_start` loop of the source has no bounds check but is
guarded by the `x_min <= x[-1]` validation; the embedding's bound is then
never the stopping reason.) -/
def advanceAux (x : List ℚ) (b : ℚ) : ℕ → ℕ → ℕ
  | 0, j => j
  | fuel + 1, j =>
      if j < x.length then
        (if x.getD j 0 < b then advanceAux x b fuel (j + 1) else j)
      else j

/-- First index `≥ j` at which `x` reaches `b` (or `x.length`). -/
def advance (x : List ℚ) (b : ℚ) (j : ℕ) : ℕ := advanceAux x b (x.length - j) j

/-- The `for i in range(num_bins)` loop of `fast_bin`: advance `j_start` to
the first index with `x[j] >= bin_min` and `j_end` to the first with
`x[j] >= bin_max`; a non-empty index range contributes
`np.nanmedian(y[j_start:j_end])`, an empty one leaves the `np.nan` that
`result` was initialised with (`none`); then both bin ends advance by
`bin_spacing`. -/
def binLoop (x y : List ℚ) (sp : ℚ) : ℕ → ℚ → ℚ → ℕ → ℕ → List (Option ℚ)
  | 0, _, _, _, _ => []
  | n + 1, bmin, bmax, js, je =>
      let js' := advance x bmin js
      let je' := advance x bmax je
      (if js' < je' then some (npMedian ((y.drop js').take (je' - js'))) else none) ::
        binLoop x y sp n (bmin + sp) (bmax + sp) js' je'

/-- `np.linspace a b n` with `endpoint=True`. -/
def linspace (a b : ℚ) (n : ℕ) : List ℚ :=
  if n = 1 then [a]
  else (List.range n).map (fun (i : ℕ) => a + (i : ℚ) * (b - a) / ((n : ℚ) - 1))

/-- Embedding of `fast_bin`: the validation chain (in source order) and the
binning loop.  Output: the `(time, flux)` columns of the binned series. -/
def fastBin (x y : List ℚ) (numBins : ℤ) (binWidth xMin xMax : Option ℚ) :
    Except PyErr (List ℚ × List (Option ℚ)) :=
  if numBins < 2 then .error (.valueError "num_bins must be at least 2")
  else if x.length < 2 then .error (.valueError "len(x) must be at least 2")
  else if x.length ≠ y.length then
    .error (.valueError "len(x) must equal len(y)")
  else
    let xmin := xMin.getD (x.headD 0)
    let xmax := xMax.getD (x.getLastD 0)
    if xmin ≥ xmax then .error (.valueError "x_min must be less than x_max")
    else if xmin > x.getLastD 0 then
      .error (.valueError "x_min must be less than or equal to the largest value of x")
    else
      let bw := binWidth.getD ((xmax - xmin) / (numBins : ℚ))
      if bw ≤ 0 then .error (.valueError "bin_width must be positive")
      else if bw ≥ xmax - xmin then
        .error (.valueError "bin_width must be less than x_max - x_min")
      else
        let sp := (xmax - xmin - bw) / ((numBins : ℚ) - 1)
        let xStart := advance x xmin 0
        .ok (linspace (xmin + sp / 2) (xmax - sp / 2) numBins.toNat,
          binLoop x y sp numBins.toNat xmin (xmin + bw) xStart xStart)

lemma advanceAux_le_length (x : List ℚ) (b : ℚ) :
    ∀ (fuel j : ℕ), j ≤ x.length → advanceAux x b fuel j ≤ x.length := by
  intro fuel
  induction fuel with
  | zero => intro j hj; exact hj
  | succ n ih =>
    intro j hj
    rw [advanceAux]
    by_cases h1 : j < x.length
    · rw [if_pos h1]
      by_cases h2 : x.getD j 0 < b
      · rw [if_pos h2]; exact ih (j + 1) h1
      · rw [if_neg h2]; exact hj
    · rw [if_neg h1]; exact hj

lemma le_advanceAux (x : List ℚ) (b : ℚ) :
    ∀ (fuel j : ℕ), j ≤ advanceAux x b fuel j := by
  intro fuel
  induction fuel with
  | zero => intro j; exact le_rfl
  | succ n ih =>
    intro j
    rw [advanceAux]
    by_cases h1 : j < x.length
    · rw [if_pos h1]
      by_cases h2 : x.getD j 0 < b
      · rw [if_pos h2]; exact le_trans (by omega) (ih (j + 1))
      · rw [if_neg h2]
    · rw [if_neg h1]

lemma advanceAux_stop (x : List ℚ) (b : ℚ) :
    ∀ (fuel j : ℕ), x.length - j ≤ fuel →
      advanceAux x b fuel j < x.length → b ≤ x.getD (advanceAux x b fuel j) 0 := by
  intro fuel
  induction fuel with
  | zero => intro j hf hlt; rw [advanceAux] at hlt ⊢; omega
  | succ n ih =>
    intro j hf hlt
    rw [advanceAux] at hlt ⊢
    by_cases h1 : j < x.length
    · rw [if_pos h1] at hlt ⊢
      by_cases h2 : x.getD j 0 < b
      · rw [if_pos h2] at hlt ⊢
        exact ih (j + 1) (by omega) hlt
      · rw [if_neg h2] at hlt ⊢
        linarith
    · rw [if_neg h1] at hlt
      omega

lemma advanceAux_passed (x : List ℚ) (b : ℚ) :
    ∀ (fuel j k : ℕ), j ≤ k → k < advanceAux x b fuel j → x.getD k 0 < b := by
  intro fuel
  induction fuel with
  | zero => intro j k hjk hk; rw [advanceAux] at hk; omega
  | succ n ih =>
    intro j k hjk hk
    rw [advanceAux] at hk
    by_cases h1 : j < x.length
    · rw [if_pos h1] at hk
      by_cases h2 : x.getD j 0 < b
      · rw [if_pos h2] at hk
        rcases Nat.eq_or_lt_of_le hjk with h | h
        · rw [← h]; exact h2
        · exact ih (j + 1) k h hk
      · rw [if_neg h2] at hk
        omega
    · rw [if_neg h1] at hk
      omega

lemma advance_le_length (x : List ℚ) (b : ℚ) (j : ℕ) (h : j ≤ x.length) :
    advance x b j ≤ x.length := advanceAux_le_length x b _ j h

lemma le_advance (x : List ℚ) (b : ℚ) (j : ℕ) : j ≤ advance x b j :=
  le_advanceAux x b _ j

lemma advance_stop (x : List ℚ) (b : ℚ) (j : ℕ)
    (h : advance x b j < x.length) : b ≤ x.getD (advance x b j) 0 :=
  advanceAux_stop x b _ j le_rfl h

lemma advance_passed (x : List ℚ) (b : ℚ) (j k : ℕ) (hjk : j ≤ k)
    (hk : k < advance x b j) : x.getD k 0 < b :=
  advanceAux_passed x b _ j k hjk hk

lemma binLoop_length (x y : List ℚ) (sp : ℚ) :
    ∀ (n : ℕ) (bmin bmax : ℚ) (js je : ℕ),
      (binLoop x y sp n bmin bmax js je).length = n := by
  intro n
  induction n with
  | zero => intro bmin bmax js je; rfl
  | succ m ih =>
    intro bmin bmax js je
    rw [binLoop]
    simp only [List.length_cons, ih]

lemma linspace_length (a b : ℚ) (n : ℕ) : (linspace a b n).length = n := by
  rw [linspace]
  split
  · simp only [List.length_cons, List.length_nil]
    omega
  · rw [List.length_map, List.length_range]

/-- If bin `i` (covering `[bmin + i*sp, bmax + i*sp)`) contains no sample
time, its output entry is `none`: whenever the loop computes a median,
`x[j_start]` lies in the current bin, because `j_start` stopped at a value
`≥ bin_min` and every index below `j_end` holds a value `< bin_max`
(maintained as an invariant since `bin_max` only grows). -/
lemma binLoop_empty_none (x y : List ℚ) (sp : ℚ) (hsp : 0 < sp) :
    ∀ (n : ℕ) (bmin bmax : ℚ) (js je : ℕ) (i : ℕ), i < n →
      js ≤ x.length → je ≤ x.length →
      (∀ k, k < je → x.getD k 0 < bmax) →
      (∀ t ∈ x, ¬(bmin + (i : ℚ) * sp ≤ t ∧ t < bmax + (i : ℚ) * sp)) →
      (binLoop x y sp n bmin bmax js je)[i]? = some none := by
  intro n
  induction n with
  | zero => intro bmin bmax js je i hi; omega
  | succ m ih =>
    intro bmin bmax js je i hi hjs hje hinv hempty
    simp only [binLoop]
    have hje' : advance x bmax je ≤ x.length := advance_le_length x bmax je hje
    have hjs' : advance x bmin js ≤ x.length := advance_le_length x bmin js hjs
    have hinv' : ∀ k, k < advance x bmax je → x.getD k 0 < bmax := by
      intro k hk
      by_cases hkje : k < je
      · exact hinv k hkje
      · exact advance_passed x bmax je k (by omega) hk
    cases i with
    | zero =>
      have hzero : ¬(advance x bmin js < advance x bmax je) := by
        intro hlt
        have hjslen : advance x bmin js < x.length := lt_of_lt_of_le hlt hje'
        have h1 : bmin ≤ x.getD (advance x bmin js) 0 := advance_stop x bmin js hjslen
        have h2 : x.getD (advance x bmin js) 0 < bmax := hinv' _ hlt
        have hmem : x.getD (advance x bmin js) 0 ∈ x := by
          rw [List.getD_eq_getElem?_getD, List.getElem?_eq_getElem hjslen]
          exact List.getElem_mem hjslen
        exact hempty _ hmem ⟨by push_cast; linarith, by push_cast; linarith⟩
      rw [List.getElem?_cons_zero, if_neg hzero]
    | succ i' =>
      rw [List.getElem?_cons_succ]
      have harith1 : bmin + ((i' + 1 : ℕ) : ℚ) * sp = bmin + sp + (i' : ℚ) * sp := by
        push_cast; ring
      have harith2 : bmax + ((i' + 1 : ℕ) : ℚ) * sp = bmax + sp + (i' : ℚ) * sp := by
        push_cast; ring
      refine ih (bmin + sp) (bmax + sp) _ _ i' (by omega) hjs' hje'
        (fun k hk => lt_trans (hinv' k hk) (by linarith)) ?_
      intro t ht hcon
      exact hempty t ht ⟨by rw [harith1]; exact hcon.1, by rw [harith2]; exact hcon.2⟩

/-- C6 counterexample: a length-2 series whose first and last times are
equal (`x = [1, 1]`) makes `fast_bin(series, 10)` raise
`ValueError` from the `x_min < x_max` validation rather than return 10
samples. -/
theorem fast_bin_equal_times_counterexample :
    fastBin [1, 1] [1, 1] 10 none none none =
      .error (.valueError "x_min must be less than x_max") := by
  norm_num [fastBin]

/-- C6 (amended): `fast_bin` with `num_bins < 2` raises `ValueError`; on a
series of length ≥ 2 with equal-length time/flux columns whose first time is
strictly below its last (so the default `x_min < x_max` validations pass),
it returns exactly `num_bins` samples whether the input is shorter or longer
than `num_bins`. -/
theorem fast_bin_count_spec (x y : List ℚ) (numBins : ℤ)
    (binWidth xMin xMax : Option ℚ) :
    (numBins < 2 → fastBin x y numBins binWidth xMin xMax =
      .error (.valueError "num_bins must be at least 2")) ∧
    (2 ≤ numBins → 2 ≤ x.length → x.length = y.length →
      x.headD 0 < x.getLastD 0 →
      ∃ ts fs, fastBin x y numBins none none none = .ok (ts, fs) ∧
        ts.length = numBins.toNat ∧ fs.length = numBins.toNat) := by
  constructor
  · intro h
    rw [fastBin, if_pos h]
  · intro hnb hlen hlenxy hfl
    rw [fastBin, if_neg (by omega), if_neg (by omega), if_neg (by omega)]
    simp only [Option.getD_none]
    have hnbq : (1 : ℚ) < (numBins : ℚ) := by
      exact_mod_cast (by omega : (1 : ℤ) < numBins)
    have hd : (0 : ℚ) < x.getLastD 0 - x.headD 0 := by linarith
    rw [if_neg (not_le.mpr hfl), if_neg (not_lt.mpr (le_of_lt hfl))]
    have hbw : (0 : ℚ) < (x.getLastD 0 - x.headD 0) / (numBins : ℚ) :=
      div_pos hd (by linarith)
    rw [if_neg (not_le.mpr hbw)]
    have hbwlt : (x.getLastD 0 - x.headD 0) / (numBins : ℚ) <
        x.getLastD 0 - x.headD 0 := div_lt_self hd (by linarith)
    rw [if_neg (not_le.mpr hbwlt)]
    exact ⟨_, _, rfl, linspace_length _ _ _, binLoop_length x y _ _ _ _ _ _⟩

/-- Witness for C6: a 3-sample series binned into 10 bins yields 10 samples
(input shorter than the bin count). -/
theorem fast_bin_count_spec_witness :
    ∃ ts fs, fastBin [0, 1, 2] [3, 4, 5] 10 none none none = .ok (ts, fs) ∧
      ts.length = (10 : ℤ).toNat ∧ fs.length = (10 : ℤ).toNat :=
  (fast_bin_count_spec [0, 1, 2] [3, 4, 5] 10 none none none).2
    (by norm_num) (by norm_num) rfl (by norm_num [List.getLastD])

/-- C7: in a successful `fast_bin` run, any bin whose half-open interval
`[bin_min, bin_max)` contains no sample time has `NaN` (`none`) as its
output flux — there is no fallback to a global median or any other global
statistic, despite the in-code comment. -/
theorem fast_bin_empty_bin_nan (x y : List ℚ) (numBins : ℤ)
    (binWidth xMin xMax : Option ℚ) (ts : List ℚ) (fs : List (Option ℚ))
    (hok : fastBin x y numBins binWidth xMin xMax = .ok (ts, fs))
    (xmin xmax bw sp : ℚ)
    (hxmin : xmin = xMin.getD (x.headD 0))
    (hxmax : xmax = xMax.getD (x.getLastD 0))
    (hbw : bw = binWidth.getD ((xmax - xmin) / (numBins : ℚ)))
    (hsp : sp = (xmax - xmin - bw) / ((numBins : ℚ) - 1))
    (i : ℕ) (hi : i < numBins.toNat)
    (hempty : ∀ t ∈ x, ¬(xmin + (i : ℚ) * sp ≤ t ∧ t < xmin + (i : ℚ) * sp + bw)) :
    fs[i]? = some none := by
  subst hxmin hxmax hbw hsp
  simp only [fastBin] at hok
  split_ifs at hok with h1 h2 h3 h4 h5 h6 h7 <;>
    try exact Except.noConfusion hok
  case _ =>
    have hp := Except.ok.inj hok
    rw [Prod.mk.injEq] at hp
    obtain ⟨hts, hfs⟩ := hp
    rw [← hfs]
    have hsp0 : 0 < (xMax.getD (x.getLastD 0) - xMin.getD (x.headD 0) -
        binWidth.getD ((xMax.getD (x.getLastD 0) - xMin.getD (x.headD 0)) /
          (numBins : ℚ))) / ((numBins : ℚ) - 1) := by
      apply div_pos
      · linarith [not_le.mp h7]
      · have : (2 : ℚ) ≤ (numBins : ℚ) := by exact_mod_cast (by omega : (2:ℤ) ≤ numBins)
        linarith
    refine binLoop_empty_none x y _ hsp0 _ _ _ _ _ i hi
      (advance_le_length x _ 0 (Nat.zero_le _))
      (advance_le_length x _ 0 (Nat.zero_le _)) ?_ ?_
    · intro k hk
      have hx : x.getD k 0 < xMin.getD (x.headD 0) :=
        advance_passed x _ 0 k (Nat.zero_le _) hk
      have hbw0 : 0 < binWidth.getD ((xMax.getD (x.getLastD 0) -
          xMin.getD (x.headD 0)) / (numBins : ℚ)) := by linarith [not_le.mp h6]
      linarith
    · intro t ht hcon
      exact hempty t ht ⟨hcon.1, by linarith [hcon.2]⟩

/-- Witness for C7: binning `x = [0, 10]` into two width-5 bins; the second
bin `[5, 10)` contains no sample and its output flux is `none`. -/
theorem fast_bin_empty_bin_nan_witness :
    ([some (5 : ℚ), none] : List (Option ℚ))[1]? = some none :=
  fast_bin_empty_bin_nan [0, 10] [5, 7] 2 none none none [5/2, 15/2]
    [some 5, none]
    (by
      have h2 : (2 : ℤ).toNat = 2 := by simp
      norm_num [fastBin, h2, advance, advanceAux, binLoop, npMedian, linspace,
        List.insertionSort, List.orderedInsert, List.getD, List.range_succ])
    0 10 5 5 rfl rfl (by norm_num) (by norm_num) 1 (by norm_num)
    (by norm_num [List.forall_mem_cons])

/-! ## Directory scan (`scan.py`, `get_obsid_path_dict_from_single_path`)

The `path.rglob("*.fits")` walk is abstracted as the list of file paths it
yields (the claim quantifies over "every sequence of scanned file paths");
a path is a string and `Path.name` is its component after the last `/`.
The five `re.match` patterns are embedded as prefix matchers over the
character list (note `re.match` anchors only at the start, `.` matches any
character and `s*`/`_*`/`-*` are regex stars on the preceding character). -/

/-- `Path.name`: the component after the last `/`. -/
def pathName (s : String) : String :=
  String.mk (s.toList.foldl (fun acc c => if c = '/' then [] else acc ++ [c]) [])

/-- Consume exactly `n` digits, returning them and the rest. -/
def takeDigits : ℕ → List Char → Option (List Char × List Char)
  | 0, cs => some ([], cs)
  | _ + 1, [] => none
  | n + 1, c :: cs =>
      if c.isDigit then (takeDigits n cs).map (fun p => (c :: p.1, p.2)) else none

/-- Consume an exact literal. -/
def lit : List Char → List Char → Option (List Char)
  | [], cs => some cs
  | _ :: _, [] => none
  | l :: ls, c :: cs => if c = l then lit ls cs else none

/-- Consume one character from a class (`[xsab]`). -/
def oneOf (cls : List Char) : List Char → Option (List Char)
  | [] => none
  | c :: cs => if c ∈ cls then some cs else none

/-- Consume one arbitrary character (the regex `.`). -/
def anyChar : List Char → Option (List Char)
  | [] => none
  | _ :: cs => some cs

/-- Consume a maximal run of `ch` (a regex `ch*` followed by a literal that
does not start with `ch`), returning the run length and the rest. -/
def manyChar (ch : Char) : List Char → ℕ × List Char
  | [] => (0, [])
  | c :: cs =>
      if c = ch then
        let p := manyChar ch cs
        (p.1 + 1, p.2)
      else (0, c :: cs)

/-- Digit characters to the integer they denote. -/
def digitsVal (cs : List Char) : ℤ :=
  cs.foldl (fun a c => a * 10 + ((c.toNat : ℤ) - 48)) 0

/-- `tess\d{13}-s\d{4}-(\d{16})-\d{4}-[xsab]_lc.fits*` (prefix match). -/
def matchSPOC (name : String) : Option ℤ := do
  let cs := name.toList
  let cs ← lit "tess".toList cs
  let (_, cs) ← takeDigits 13 cs
  let cs ← lit "-s".toList cs
  let (_, cs) ← takeDigits 4 cs
  let cs ← lit "-".toList cs
  let (id, cs) ← takeDigits 16 cs
  let cs ← lit "-".toList cs
  let (_, cs) ← takeDigits 4 cs
  let cs ← lit "-".toList cs
  let cs ← oneOf ['x', 's', 'a', 'b'] cs
  let cs ← lit "_lc".toList cs
  let cs ← anyChar cs
  let _ ← lit "fit".toList cs
  pure (digitsVal id)

/-- `tess\d{13}-s\d{4}-(\d{16})-\d{4}-[xsab]_fast-lc.fits*`. -/
def matchFastSPOC (name : String) : Option ℤ := do
  let cs := name.toList
  let cs ← lit "tess".toList cs
  let (_, cs) ← takeDigits 13 cs
  let cs ← lit "-s".toList cs
  let (_, cs) ← takeDigits 4 cs
  let cs ← lit "-".toList cs
  let (id, cs) ← takeDigits 16 cs
  let cs ← lit "-".toList cs
  let (_, cs) ← takeDigits 4 cs
  let cs ← lit "-".toList cs
  let cs ← oneOf ['x', 's', 'a', 'b'] cs
  let cs ← lit "_fast-lc".toList cs
  let cs ← anyChar cs
  let _ ← lit "fit".toList cs
  pure (digitsVal id)

/-- `hlsp_tess-spoc_tess_phot_(\d{16})-s\d{4}_tess_v1_lc.fits*`. -/
def matchTESSSPOC (name : String) : Option ℤ := do
  let cs := name.toList
  let cs ← lit "hlsp_tess-spoc_tess_phot_".toList cs
  let (id, cs) ← takeDigits 16 cs
  let cs ← lit "-s".toList cs
  let (_, cs) ← takeDigits 4 cs
  let cs ← lit "_tess_v1_lc".toList cs
  let cs ← anyChar cs
  let _ ← lit "fit".toList cs
  pure (digitsVal id)

/-- `hlsp_qlp_tess_ffi_s\d{4}-(\d{16})_tess_v01_llc.fits*`. -/
def matchQLP (name : String) : Option ℤ := do
  let cs := name.toList
  let cs ← lit "hlsp_qlp_tess_ffi_s".toList cs
  let (_, cs) ← takeDigits 4 cs
  let cs ← lit "-".toList cs
  let (id, cs) ← takeDigits 16 cs
  let cs ← lit "_tess_v01_llc".toList cs
  let cs ← anyChar cs
  let _ ← lit "fit".toList cs
  pure (digitsVal id)

/-- `hlsp_tasoc_tess_*_tic(\d{11})-s\d{4}-*-*-c\d{4}_tess_*_*-lc.fits*`.
After backtracking, `_*_tic` is "one or more `_` then `tic`",
`-*-*-c` is "one or more `-` then `c`", and `_tess_*_*-lc` is
"`_tess`, any number of `_`, then `-lc`". -/
def matchTASOC (name : String) : Option ℤ := do
  let cs := name.toList
  let cs ← lit "hlsp_tasoc_tess".toList cs
  let (n1, cs) := manyChar '_' cs
  let _ ← if 1 ≤ n1 then some () else none
  let cs ← lit "tic".toList cs
  let (id, cs) ← takeDigits 11 cs
  let cs ← lit "-s".toList cs
  let (_, cs) ← takeDigits 4 cs
  let (n2, cs) := manyChar '-' cs
  let _ ← if 1 ≤ n2 then some () else none
  let cs ← lit "c".toList cs
  let (_, cs) ← takeDigits 4 cs
  let cs ← lit "_tess".toList cs
  let (_, cs) := manyChar '_' cs
  let cs ← lit "-lc".toList cs
  let cs ← anyChar cs
  let _ ← lit "fit".toList cs
  pure (digitsVal id)

/-- The `if SPOC_match: ... elif ... else: continue` chain extracting the
object id from a file name. -/
def extractObsid (name : String) : Option ℤ :=
  match matchSPOC name with
  | some o => some o
  | none =>
    match matchFastSPOC name with
    | some o => some o
    | none =>
      match matchTESSSPOC name with
      | some o => some o
      | none =>
        match matchQLP name with
        | some o => some o
        | none => matchTASOC name

/-- Lookup in the insertion-ordered dictionary
(`output_dict[obsid]`, raising `KeyError` = `none` when absent). -/
def lookupList (o : ℤ) : List (ℤ × List String) → Option (List String)
  | [] => none
  | e :: d => if e.1 = o then some e.2 else lookupList o d

/-- The `try/except KeyError` insertion: skip a file whose name is already
recorded under the object id, append to the entry otherwise, create the
entry on `KeyError`. -/
def insertFile (d : List (ℤ × List String)) (o : ℤ) (fp : String) :
    List (ℤ × List String) :=
  match lookupList o d with
  | some ps =>
      if pathName fp ∈ ps.map pathName then d
      else d.map (fun e => if e.1 = o then (e.1, e.2 ++ [fp]) else e)
  | none => d ++ [(o, [fp])]

/-- One iteration of the `for file_path in path.rglob("*.fits")` loop. -/
def scanStep (d : List (ℤ × List String)) (fp : String) : List (ℤ × List String) :=
  match extractObsid (pathName fp) with
  | none => d
  | some o => insertFile d o fp

/-- `get_obsid_path_dict_from_single_path`, over the file paths the
`rglob` walk yields. -/
def scanDir (files : List String) : List (ℤ × List String) :=
  files.foldl scanStep []

/-- The scan-index invariant: object ids are unique, and no file name is
recorded twice under the same object id. -/
def DInv (d : List (ℤ × List String)) : Prop :=
  (d.map Prod.fst).Nodup ∧ ∀ e ∈ d, (e.2.map pathName).Nodup

lemma lookupList_mem {d : List (ℤ × List String)} {o : ℤ} {ps : List String}
    (h : lookupList o d = some ps) : (o, ps) ∈ d := by
  induction d with
  | nil => exact absurd h (by simp [lookupList])
  | cons e d' ih =>
    rw [lookupList] at h
    by_cases he : e.1 = o
    · rw [if_pos he] at h
      injection h with h2
      exact List.mem_cons.mpr (Or.inl (by rw [← he, ← h2]))
    · rw [if_neg he] at h
      exact List.mem_cons_of_mem _ (ih h)

lemma lookupList_none_ne {d : List (ℤ × List String)} {o : ℤ}
    (h : lookupList o d = none) : ∀ e ∈ d, e.1 ≠ o := by
  induction d with
  | nil => simp
  | cons e d' ih =>
    rw [lookupList] at h
    by_cases he : e.1 = o
    · rw [if_pos he] at h
      exact absurd h (by simp)
    · rw [if_neg he] at h
      intro x hx
      rcases List.mem_cons.mp hx with hx | hx
      · rw [hx]; exact he
      · exact ih h x hx

lemma lookupList_of_mem {d : List (ℤ × List String)}
    (hk : (d.map Prod.fst).Nodup) {e : ℤ × List String} (he : e ∈ d) :
    lookupList e.1 d = some e.2 := by
  induction d with
  | nil => exact absurd he (by simp)
  | cons a d' ih =>
    rw [List.map_cons, List.nodup_cons] at hk
    rcases List.mem_cons.mp he with h | h
    · rw [h, lookupList, if_pos rfl]
    · rw [lookupList]
      have hne : a.1 ≠ e.1 := by
        intro hcon
        exact hk.1 (hcon ▸ List.mem_map_of_mem Prod.fst h)
      rw [if_neg hne]
      exact ih hk.2 h

lemma lookupList_map_update (d : List (ℤ × List String)) (o o' : ℤ) (fp : String) :
    lookupList o' (d.map (fun e => if e.1 = o then (e.1, e.2 ++ [fp]) else e)) =
      if o' = o then (lookupList o' d).map (fun ps => ps ++ [fp])
      else lookupList o' d := by
  induction d with
  | nil => simp [lookupList]
  | cons e d' ih =>
    rw [List.map_cons]
    by_cases heo : e.1 = o
    · rw [if_pos heo]
      simp only [lookupList]
      by_cases he' : e.1 = o'
      · have ho' : o' = o := by rw [← he', heo]
        rw [if_pos he', if_pos ho', if_pos he']
        rfl
      · have ho' : ¬o' = o := fun hc => he' (by rw [heo, hc])
        rw [if_neg he', ih, if_neg ho', if_neg ho', if_neg he']
    · rw [if_neg heo]
      simp only [lookupList]
      by_cases he' : e.1 = o'
      · have ho' : ¬o' = o := fun hc => heo (by rw [he', hc])
        rw [if_pos he', if_neg ho', if_pos he']
      · rw [if_neg he', ih]
        by_cases ho' : o' = o
        · rw [if_pos ho', if_pos ho', if_neg he']
        · rw [if_neg ho', if_neg ho', if_neg he']

lemma lookupList_append (d l : List (ℤ × List String)) (o : ℤ) :
    lookupList o (d ++ l) =
      match lookupList o d with
      | some ps => some ps
      | none => lookupList o l := by
  induction d with
  | nil => simp [lookupList]
  | cons e d' ih =>
    rw [List.cons_append, lookupList, lookupList]
    by_cases he : e.1 = o
    · rw [if_pos he, if_pos he]
    · rw [if_neg he, if_neg he, ih]

lemma nodup_append_singleton {α : Type} {l : List α} {a : α} (ha : a ∉ l)
    (hl : l.Nodup) : (l ++ [a]).Nodup :=
  List.nodup_append.mpr ⟨hl, List.nodup_singleton a,
    fun x hx hxa => ha ((List.mem_singleton.mp hxa) ▸ hx)⟩

lemma insertFile_inv {d : List (ℤ × List String)} (hd : DInv d) (o : ℤ)
    (fp : String) : DInv (insertFile d o fp) := by
  cases hl : lookupList o d with
  | some ps =>
    simp only [insertFile, hl]
    by_cases hmem : pathName fp ∈ ps.map pathName
    · rw [if_pos hmem]; exact hd
    · rw [if_neg hmem]
      constructor
      · have hkeys : (d.map (fun e => if e.1 = o then (e.1, e.2 ++ [fp]) else e)).map
            Prod.fst = d.map Prod.fst := by
          rw [List.map_map]
          apply List.map_congr_left
          intro e _
          by_cases he : e.1 = o <;> simp [he]
        rw [hkeys]
        exact hd.1
      · intro e' he'
        obtain ⟨e, hed, heq⟩ := List.mem_map.mp he'
        by_cases he : e.1 = o
        · rw [if_pos he] at heq
          rw [← heq]
          have heps : e.2 = ps := by
            have hle := lookupList_of_mem hd.1 hed
            rw [he, hl] at hle
            injection hle with hval
            exact hval.symm
          simp only [List.map_append, List.map_cons, List.map_nil]
          rw [heps]
          exact nodup_append_singleton hmem (heps ▸ hd.2 e hed)
        · rw [if_neg he] at heq
          rw [← heq]
          exact hd.2 e hed
  | none =>
    simp only [insertFile, hl]
    constructor
    · rw [List.map_append, List.map_cons, List.map_nil]
      refine nodup_append_singleton ?_ hd.1
      intro hcon
      obtain ⟨e, hed, heq⟩ := List.mem_map.mp hcon
      exact lookupList_none_ne hl e hed heq
    · intro e he
      rcases List.mem_append.mp he with h | h
      · exact hd.2 e h
      · rw [List.mem_singleton.mp h]
        simp

/-- `fp`'s file name is recorded under its extracted object id. -/
def RecordedF (d : List (ℤ × List String)) (fp : String) : Prop :=
  ∀ o, extractObsid (pathName fp) = some o →
    ∃ ps, lookupList o d = some ps ∧ pathName fp ∈ ps.map pathName

lemma insertFile_recorded (d : List (ℤ × List String)) (o : ℤ) (fp : String) :
    ∃ ps, lookupList o (insertFile d o fp) = some ps ∧
      pathName fp ∈ ps.map pathName := by
  cases hl : lookupList o d with
  | some ps =>
    simp only [insertFile, hl]
    by_cases hmem : pathName fp ∈ ps.map pathName
    · rw [if_pos hmem]; exact ⟨ps, hl, hmem⟩
    · rw [if_neg hmem]
      refine ⟨ps ++ [fp], ?_, ?_⟩
      · rw [lookupList_map_update, if_pos rfl, hl]
        rfl
      · rw [List.map_append]
        simp
  | none =>
    simp only [insertFile, hl]
    refine ⟨[fp], ?_, by simp⟩
    rw [lookupList_append, hl]
    simp [lookupList]

lemma insertFile_mono (d : List (ℤ × List String)) (o : ℤ) (fp : String)
    (o' : ℤ) (ps : List String) (h : lookupList o' d = some ps) :
    ∃ qs, lookupList o' (insertFile d o fp) = some qs ∧ ∀ x ∈ ps, x ∈ qs := by
  cases hl : lookupList o d with
  | some ps0 =>
    simp only [insertFile, hl]
    by_cases hmem : pathName fp ∈ ps0.map pathName
    · rw [if_pos hmem]
      exact ⟨ps, h, fun x hx => hx⟩
    · rw [if_neg hmem, lookupList_map_update]
      by_cases ho' : o' = o
      · rw [if_pos ho', h]
        exact ⟨ps ++ [fp], rfl, fun x hx => List.mem_append_left _ hx⟩
      · rw [if_neg ho', h]
        exact ⟨ps, rfl, fun x hx => hx⟩
  | none =>
    simp only [insertFile, hl]
    refine ⟨ps, ?_, fun x hx => hx⟩
    rw [lookupList_append, h]

lemma scanStep_recorded (d : List (ℤ × List String)) (fp : String) :
    RecordedF (scanStep d fp) fp := by
  intro o ho
  simp only [scanStep, ho]
  exact insertFile_recorded d o fp

lemma scanStep_preserves_rec (d : List (ℤ × List String)) (fp g : String)
    (h : RecordedF d g) : RecordedF (scanStep d fp) g := by
  intro o ho
  obtain ⟨ps, hlook, hmem⟩ := h o ho
  cases he : extractObsid (pathName fp) with
  | none =>
    simp only [scanStep, he]
    exact ⟨ps, hlook, hmem⟩
  | some o2 =>
    simp only [scanStep, he]
    obtain ⟨qs, hq, hsub⟩ := insertFile_mono d o2 fp o ps hlook
    refine ⟨qs, hq, ?_⟩
    obtain ⟨x, hx, hxeq⟩ := List.mem_map.mp hmem
    exact hxeq ▸ List.mem_map_of_mem pathName (hsub x hx)

lemma scanStep_skip (d : List (ℤ × List String)) (fp : String)
    (h : RecordedF d fp) : scanStep d fp = d := by
  cases he : extractObsid (pathName fp) with
  | none => simp only [scanStep, he]
  | some o =>
    simp only [scanStep, he]
    obtain ⟨ps, hlook, hmem⟩ := h o he
    simp only [insertFile, hlook]
    rw [if_pos hmem]

lemma scanFold_preserves_rec (g : String) :
    ∀ (files : List String) (d : List (ℤ × List String)),
      RecordedF d g → RecordedF (files.foldl scanStep d) g := by
  intro files
  induction files with
  | nil => intro d h; exact h
  | cons f fs ih =>
    intro d h
    rw [List.foldl_cons]
    exact ih _ (scanStep_preserves_rec d f g h)

lemma scanFold_recorded :
    ∀ (files : List String) (d : List (ℤ × List String)),
      ∀ f ∈ files, RecordedF (files.foldl scanStep d) f := by
  intro files
  induction files with
  | nil => intro d f hf; exact absurd hf (by simp)
  | cons g fs ih =>
    intro d f hf
    rw [List.foldl_cons]
    rcases List.mem_cons.mp hf with h | h
    · subst h
      exact scanFold_preserves_rec f fs _ (scanStep_recorded d f)
    · exact ih _ f h

lemma scanFold_inv :
    ∀ (files : List String) (d : List (ℤ × List String)),
      DInv d → DInv (files.foldl scanStep d) := by
  intro files
  induction files with
  | nil => intro d h; exact h
  | cons f fs ih =>
    intro d h
    rw [List.foldl_cons]
    refine ih _ ?_
    cases he : extractObsid (pathName f) with
    | none => simp only [scanStep, he]; exact h
    | some o => simp only [scanStep, he]; exact insertFile_inv h o f

lemma scanFold_id :
    ∀ (files : List String) (d : List (ℤ × List String)),
      (∀ f ∈ files, RecordedF d f) → files.foldl scanStep d = d := by
  intro files
  induction files with
  | nil => intro d _; rfl
  | cons f fs ih =>
    intro d h
    rw [List.foldl_cons, scanStep_skip d f (h f (by simp))]
    exact ih d (fun g hg => h g (by simp [hg]))

/-- C9: a single directory scan never records two paths with the same file
name under the same object id, and re-scanning the same file sequence again
changes nothing (idempotent re-insertion). -/
theorem scan_no_duplicate_names (files : List String) :
    (∀ (o : ℤ) (ps : List String), lookupList o (scanDir files) = some ps →
      (ps.map pathName).Nodup) ∧
    scanDir (files ++ files) = scanDir files := by
  constructor
  · intro o ps h
    have hinv : DInv (scanDir files) :=
      scanFold_inv files [] ⟨by simp, by simp⟩
    exact hinv.2 (o, ps) (lookupList_mem h)
  · rw [scanDir, List.foldl_append]
    exact scanFold_id files _ (fun f hf => scanFold_recorded files [] f hf)

/-- Witness for C9: two copies of the same `SPOC` file name under two
directories; only the first path is recorded under object id 12345678 and
its name list is duplicate-free. -/
theorem scan_no_duplicate_names_witness :
    ((["d1/tess2019006130736-s0063-0000000012345678-0211-s_lc.fits"]).map
      pathName).Nodup :=
  (scan_no_duplicate_names
      ["d1/tess2019006130736-s0063-0000000012345678-0211-s_lc.fits",
       "d2/tess2019006130736-s0063-0000000012345678-0211-s_lc.fits"]).1
    12345678 _ (by decide)

/-! ## Local search (`search_local.py`, `LightCurveDirectory.search_lightcurve`)

The file system is abstracted by three parameters: `isFile p`
(`path.is_file()`), `fnm p pattern` (`fnmatch(path.name, pattern)`) and
`rglob p pattern` (the file list of `path.rglob(pattern)`).  The cached
per-directory indexes are the association lists of the scan section.
Python `set(...)` has implementation-defined iteration order; `pySet`
determinises it keeping first occurrences (only membership matters to the
claims).  The generator arguments `mission`, `quarter`, `month`, `campaign`
and `limit` only assign the otherwise-unused local `mission`
(`_pack_mission` is never called), so they do not appear in the embedding. -/

def AUTHOR_LIST : List String :=
  ["Kepler", "K2", "SPOC", "TESS-SPOC", "QLP", "TASOC", "PATHOS",
   "CDIPS", "K2SFF", "EVEREST"]

/-- A Python `set(...)` materialised as the first-occurrence dedup. -/
def pySet {α : Type} [DecidableEq α] (l : List α) : List α :=
  l.foldl (fun acc x => if x ∈ acc then acc else acc ++ [x]) []

/-- A sector value inside the generator loops: an int or the `"*"` left by
the wildcard normalisation. -/
inductive SectorVal where
  | star
  | num (n : ℤ)
  deriving DecidableEq, Repr

/-- An exposure-time value inside the loops: a number or `"*"`. -/
inductive EV where
  | star
  | num (q : ℚ)
  deriving DecidableEq, Repr

/-- The Python `author` argument: `None`, a string, or a list of strings. -/
inductive PyAuthor where
  | pyNone
  | pyStr (s : String)
  | pyList (l : List String)
  deriving DecidableEq, Repr

/-- The Python `sector` argument. -/
inductive PySector where
  | pyNone
  | pyInt (n : ℤ)
  | pyList (l : List ℤ)
  | pyStr (s : String)
  deriving DecidableEq, Repr

/-- The Python `exptime` argument (lists may nest, as the source recurses
with `next(_pack_exptime(e))`). -/
inductive PyExptime where
  | pyNone
  | pyStr (s : String)
  | pyNum (q : ℚ)
  | pyList (l : List PyExptime)

mutual
/-- `_pack_exptime`, materialised: the symbolic classes, a literal number,
`None` as the `"*"` wildcard, and for a collection the first yield of each
element (`next(...)` on an element yielding nothing raises; PEP 479 turns
the escaped `StopIteration` into a `RuntimeError`). -/
def packExptime : PyExptime → Except PyErr (List EV)
  | .pyNone => .ok [.star]
  | .pyNum q => .ok [.num q]
  | .pyStr s =>
      let t := s.toLower
      if t = "fast" then .ok [.num 20]
      else if t = "short" then .ok [.num 60, .num 120]
      else if t = "long" ∨ t = "ffi" then .ok [.num 600, .num 1200, .num 1800]
      else .error (.valueError ("exptime=" ++ t ++ " is not valid"))
  | .pyList l => packExptimeFirsts l

/-- `yield next(_pack_exptime(e))` for each element of a collection. -/
def packExptimeFirsts : List PyExptime → Except PyErr (List EV)
  | [] => .ok []
  | e :: es => do
      let vs ← packExptime e
      match vs with
      | v :: _ => do
          let rest ← packExptimeFirsts es
          pure (v :: rest)
      | [] => .error .runtimeError
end

/-- The sector normalisation (`search_local.py` lines 245-252). -/
def normSector : PySector → Except PyErr (List SectorVal)
  | .pyInt n => .ok [.num n]
  | .pyList l => .ok (l.map .num)
  | .pyNone => .ok [.star]
  | .pyStr s =>
      if s = "*" ∨ s = "all" then .ok [.star]
      else .error (.typeError "sector must be an int or a list of ints")

/-- The author normalisation (`search_local.py` lines 254-262): a string
outside the vocabulary (and not a wildcard token) raises `ValueError`, the
wildcard tokens and `None` expand to the whole vocabulary, and a list is
passed through unchanged (unvalidated). -/
def normAuthor : PyAuthor → Except PyErr (List String)
  | .pyStr s =>
      if s ∉ AUTHOR_LIST ∧ s ≠ "*" ∧ s ≠ "all" then
        .error (.valueError ("author must be one of " ++
          String.intercalate ", " AUTHOR_LIST))
      else if s = "*" ∨ s = "all" then .ok AUTHOR_LIST
      else .ok [s]
  | .pyNone => .ok AUTHOR_LIST
  | .pyList l => .ok l

/-- Python `f"{n:0wd}"` zero padding of an integer. -/
def padInt (w : ℕ) (n : ℤ) : String :=
  let s := toString n.natAbs
  let p := String.mk (List.replicate (w - s.length) '0') ++ s
  if n < 0 then "-" ++ p else p

/-- `f"{s:{'04d' if s != '*' else ''}}"`-style sector formatting. -/
def fmtSec (w : ℕ) : SectorVal → String
  | .star => "*"
  | .num n => padInt w n

/-- Exposure-time formatting for the TASOC pattern (an integral value; a
non-integral float would make Python's `04d` format raise, a case no claim
reaches — the embedding formats the numerator). -/
def fmtEt (w : ℕ) : EV → String
  | .star => "*"
  | .num q => padInt w q.num

/-- The `if a == "SPOC" and (et == 120 or et == "*"): yield ... elif ...`
chain: the patterns contributed by one `(sector, exptime, author)` triple.
Authors without a branch (`Kepler`, `K2`, `CDIPS`, `K2SFF`, `EVEREST`)
yield nothing. -/
def emitPatterns (target : ℤ) (s : SectorVal) (et : EV) (a : String) :
    List String :=
  if a = "SPOC" ∧ (et = .num 120 ∨ et = .star) then
    ["tess*-s" ++ fmtSec 4 s ++ "-" ++ padInt 16 target ++
      "-[0-9]*-[xsab]_lc.fits*"]
  else if a = "SPOC" ∧ (et = .num 20 ∨ et = .star) then
    ["tess*-s" ++ fmtSec 4 s ++ "-" ++ padInt 16 target ++
      "-[0-9]*-[xsab]_fast-lc.fits*"]
  else if a = "TESS-SPOC" then
    ["hlsp_tess-spoc_tess_phot_" ++ padInt 16 target ++ "-s" ++ fmtSec 4 s ++
      "_tess_v1_lc.fits*"]
  else if a = "QLP" then
    ["hlsp_qlp_tess_ffi_s" ++ fmtSec 4 s ++ "-" ++ padInt 16 target ++
      "_tess_v01_llc.fits*"]
  else if a = "TASOC" then
    ["hlsp_tasoc_tess_*_tic" ++ padInt 11 target ++ "-s" ++ fmtSec 2 s ++
      "-*-*-c" ++ fmtEt 4 et ++ "_tess_v*lc.fits*"]
  else if a = "PATHOS" then
    ["hlsp_pathos_tess_lightcurve_tic-" ++ padInt 10 target ++ "-s" ++
      fmtSec 4 s ++ "_tess_v1_llc.fits*"]
  else []

/-- `kwargs_pattern_generator`, materialised as the list of its yields (or
the exception its first pull raises): sector normalisation, then author
normalisation, then the three nested loops
(`for s in sector: for et in set(_pack_exptime(exptime)): for a in author`).
`_pack_exptime` runs inside the sector loop, so its exceptions surface only
when at least one sector value exists. -/
def kwargsPatternGenerator (target : ℤ) (exptime : PyExptime)
    (author : PyAuthor) (sector : PySector) : Except PyErr (List String) := do
  let sectors ← normSector sector
  let authors ← normAuthor author
  let patss ← sectors.mapM (fun s => do
      let ets ← packExptime exptime
      pure ((pySet ets).flatMap (fun et =>
        authors.flatMap (fun a => emitPatterns target s et a))))
  pure patss.flatten

/-- The candidate-path computation of `search_lightcurve`: when every
directory has a cache dict, take the cached paths of the target (a missing
target contributes nothing, an empty dict falls back to its directory);
otherwise search all directories. -/
def localPath (dicts : List (List (ℤ × List String))) (dirs : List String)
    (target : ℤ) : List String :=
  if dicts.length = dirs.length then
    (dicts.zip dirs).flatMap (fun p =>
      if p.1.isEmpty then [p.2]
      else
        match lookupList target p.1 with
        | some ps => ps
        | none => [])
  else dirs

/-- `f.name not in seen` deduplication keeping first occurrences. -/
def dedupByName (files : List String) : List String :=
  (files.foldl
    (fun acc f =>
      if pathName f ∈ acc.2 then acc else (acc.1 ++ [f], acc.2 ++ [pathName f]))
    (([], []) : List String × List String)).1

/-- The path ordering used by `sorted(...)` in `SearchResults.__init__`. -/
def strLE (a b : String) : Prop := a < b ∨ a = b

instance : DecidableRel strLE := fun a b => by unfold strLE; infer_instance

/-- Embedding of `search_lightcurve`: build `set(local_path)`, pull the
(lazily failing) pattern generator once per path, match cached files by
name and directories by recursive glob, return `None` for zero files, and
otherwise the name-deduplicated, sorted `SearchResults` list. -/
def searchLightcurve (isFile : String → Bool) (fnm : String → String → Bool)
    (rglob : String → String → List String)
    (dicts : List (List (ℤ × List String))) (dirs : List String) (target : ℤ)
    (exptime : PyExptime) (author : PyAuthor) (sector : PySector) :
    Except PyErr (Option (List String)) := do
  let lp := pySet (localPath dicts dirs target)
  let filess ← lp.mapM (fun p => do
      let pats ← kwargsPatternGenerator target exptime author sector
      pure (pats.flatMap (fun pattern =>
        if isFile p then (if fnm p pattern then [p] else []) else rglob p pattern)))
  let files := filess.flatten
  if files.length = 0 then pure none
  else pure (some ((dedupByName files).insertionSort strLE))

lemma exbind_error {ε α β : Type} (e : ε) (f : α → Except ε β) :
    (Except.error e >>= f) = .error e := rfl

lemma mapM_ok {α β : Type} (l : List α) (f : α → Except PyErr β) (g : α → β)
    (hf : ∀ a ∈ l, f a = .ok (g a)) : l.mapM f = .ok (l.map g) := by
  induction l with
  | nil => rfl
  | cons a t ih =>
    rw [List.mapM_cons, hf a (by simp), exbind_ok,
      ih (fun x hx => hf x (by simp [hx])), exbind_ok]
    rfl

/-- C8 counterexample: with every cached index non-empty but missing the
target, `set(local_path)` is empty, the lazily-evaluated pattern generator
is never pulled, and `search_lightcurve` returns the empty sentinel `None`
even though the string author is far outside the vocabulary — no
`ValueError` is raised. -/
theorem search_author_no_paths_counterexample :
    searchLightcurve (fun _ => false) (fun _ _ => false) (fun _ _ => [])
      [[(5, ["f"])]] ["d"] 7 .pyNone (.pyStr "NOTANAUTHOR") .pyNone =
      .ok none := rfl

/-- C8 (amended): provided at least one candidate path exists (so the lazy
generator is pulled) and the sector argument is well-formed, a string
author outside the vocabulary (and not a wildcard token) makes
`search_lightcurve` raise `ValueError`; the wildcard tokens `"*"`/`"all"`
and an unset (`None`) author behave exactly as the full vocabulary list. -/
theorem search_author_validation (isFile : String → Bool)
    (fnm : String → String → Bool) (rglob : String → String → List String)
    (dicts : List (List (ℤ × List String))) (dirs : List String) (target : ℤ)
    (exptime : PyExptime) (sector : PySector) :
    (∀ s : String,
      pySet (localPath dicts dirs target) ≠ [] →
      isOkE (normSector sector) = true →
      s ∉ AUTHOR_LIST → s ≠ "*" → s ≠ "all" →
      searchLightcurve isFile fnm rglob dicts dirs target exptime
          (.pyStr s) sector =
        .error (.valueError ("author must be one of " ++
          String.intercalate ", " AUTHOR_LIST))) ∧
    searchLightcurve isFile fnm rglob dicts dirs target exptime
        (.pyStr "*") sector =
      searchLightcurve isFile fnm rglob dicts dirs target exptime
        (.pyList AUTHOR_LIST) sector ∧
    searchLightcurve isFile fnm rglob dicts dirs target exptime
        (.pyStr "all") sector =
      searchLightcurve isFile fnm rglob dicts dirs target exptime
        (.pyList AUTHOR_LIST) sector ∧
    searchLightcurve isFile fnm rglob dicts dirs target exptime
        .pyNone sector =
      searchLightcurve isFile fnm rglob dicts dirs target exptime
        (.pyList AUTHOR_LIST) sector := by
  refine ⟨?_, rfl, rfl, rfl⟩
  intro s hlp hsec hs1 hs2 hs3
  obtain ⟨ss, hss⟩ : ∃ ss, normSector sector = .ok ss := by
    cases h : normSector sector with
    | ok v => exact ⟨v, rfl⟩
    | error e => rw [h] at hsec; simp [isOkE] at hsec
  have hA : normAuthor (.pyStr s) =
      .error (.valueError ("author must be one of " ++
        String.intercalate ", " AUTHOR_LIST)) := by
    simp only [normAuthor]
    rw [if_pos ⟨hs1, hs2, hs3⟩]
  have hkw : kwargsPatternGenerator target exptime (.pyStr s) sector =
      .error (.valueError ("author must be one of " ++
        String.intercalate ", " AUTHOR_LIST)) := by
    simp only [kwargsPatternGenerator]
    rw [hss, exbind_ok, hA, exbind_error]
  simp only [searchLightcurve]
  rcases hlp' : pySet (localPath dicts dirs target) with _ | ⟨p, rest⟩
  · exact absurd hlp' hlp
  · simp only [List.mapM_cons, hkw, exbind_error]

/-- Witness for C8: a single-directory search with no cache
(`dicts.length ≠ dirs.length` puts the directory itself on the candidate
list) and an author string outside the vocabulary raises `ValueError`. -/
theorem search_author_validation_witness :
    searchLightcurve (fun _ => false) (fun _ _ => false) (fun _ _ => [])
      [] ["root"] 42 .pyNone (.pyStr "NOTANAUTHOR") .pyNone =
      .error (.valueError ("author must be one of " ++
        String.intercalate ", " AUTHOR_LIST)) :=
  (search_author_validation (fun _ => false) (fun _ _ => false)
      (fun _ _ => []) [] ["root"] 42 .pyNone .pyNone).1
    "NOTANAUTHOR" (by decide) rfl (by decide) (by decide) (by decide)

/-- C10: when the author constraint resolves only to vocabulary authors
that have no implemented file-naming branch (`Kepler`, `K2`, `CDIPS`,
`K2SFF`, `EVEREST`), the generator yields no glob pattern at all and
`search_lightcurve` returns the empty sentinel `None`, regardless of the
cache contents, the configured roots, or which files the file system
holds. -/
theorem search_no_pattern_authors (isFile : String → Bool)
    (fnm : String → String → Bool) (rglob : String → String → List String)
    (dicts : List (List (ℤ × List String))) (dirs : List String) (target : ℤ)
    (exptime : PyExptime) (author : PyAuthor) (sector : PySector)
    (hsec : isOkE (normSector sector) = true)
    (hexp : isOkE (packExptime exptime) = true)
    (as : List String) (ha : normAuthor author = .ok as)
    (hsub : ∀ a ∈ as, a ∈ (["Kepler", "K2", "CDIPS", "K2SFF", "EVEREST"] :
      List String)) :
    kwargsPatternGenerator target exptime author sector = .ok [] ∧
    searchLightcurve isFile fnm rglob dicts dirs target exptime author sector =
      .ok none := by
  obtain ⟨ss, hss⟩ : ∃ ss, normSector sector = .ok ss := by
    cases h : normSector sector with
    | ok v => exact ⟨v, rfl⟩
    | error e => rw [h] at hsec; simp [isOkE] at hsec
  obtain ⟨evs, hevs⟩ : ∃ evs, packExptime exptime = .ok evs := by
    cases h : packExptime exptime with
    | ok v => exact ⟨v, rfl⟩
    | error e => rw [h] at hexp; simp [isOkE] at hexp
  have hemit : ∀ (sv : SectorVal) (et : EV), ∀ a ∈ as,
      emitPatterns target sv et a = [] := by
    intro sv et a hmem
    have h5 := hsub a hmem
    simp only [List.mem_cons, List.not_mem_nil, or_false] at h5
    rcases h5 with rfl | rfl | rfl | rfl | rfl <;> simp [emitPatterns]
  have hinner : ∀ sv : SectorVal,
      ((pySet evs).flatMap (fun et =>
        as.flatMap (fun a => emitPatterns target sv et a))) = [] := by
    intro sv
    rw [List.flatMap_eq_nil_iff]
    intro et _
    rw [List.flatMap_eq_nil_iff]
    intro a haas
    exact hemit sv et a haas
  have hkw : kwargsPatternGenerator target exptime author sector = .ok [] := by
    simp only [kwargsPatternGenerator]
    rw [hss, exbind_ok, ha, exbind_ok,
      mapM_ok ss _ (fun _ => ([] : List String)) ?_, exbind_ok]
    · have hflat : (ss.map (fun _ => ([] : List String))).flatten = [] := by
        rw [List.flatten_eq_nil_iff]
        intro l hl
        simp at hl
        exact hl.2
      rw [hflat]
      rfl
    · intro sv _
      rw [hevs, exbind_ok, hinner sv]
      rfl
  refine ⟨hkw, ?_⟩
  simp only [searchLightcurve]
  rw [mapM_ok (pySet (localPath dicts dirs target)) _
    (fun _ => ([] : List String)) ?_, exbind_ok]
  · have hflat : ((pySet (localPath dicts dirs target)).map
        (fun _ => ([] : List String))).flatten = [] := by
      rw [List.flatten_eq_nil_iff]
      intro l hl
      simp at hl
      exact hl.2
    rw [hflat, if_pos (by simp)]
    rfl
  · intro p _
    rw [hkw, exbind_ok]
    rfl

/-- Witness for C10: author `"Kepler"` on a cacheless single root, with the
abstract file system offering a file for every glob — still `None` and no
patterns. -/
theorem search_no_pattern_authors_witness :
    kwargsPatternGenerator 42 .pyNone (.pyStr "Kepler") .pyNone = .ok [] ∧
    searchLightcurve (fun _ => true) (fun _ _ => true)
      (fun _ _ => ["ghost.fits"]) [] ["root"] 42 .pyNone (.pyStr "Kepler")
      .pyNone = .ok none :=
  search_no_pattern_authors (fun _ => true) (fun _ _ => true)
    (fun _ _ => ["ghost.fits"]) [] ["root"] 42 .pyNone (.pyStr "Kepler")
    .pyNone rfl (by simp [packExptime, isOkE]) ["Kepler"] rfl (by decide)

end LKExt
